import Mathlib

/-!
Verification of the document indexing and relevance-ranking engine of
`app/naoma/architectures/aquery_rag.py`: tokenizer, sentence splitter,
BM25 index, ranking pipeline, excerpt selection and semantic compression.
Python floats are idealised as elements of a linear ordered field `K`
(instantiated at `Real` in the theorems), and Python's `math.log` is a
parameter `log : K → K` (instantiated at `Real.log`).
-/

namespace Naoma

/-- Apostrophe character (code point 39), written via `Char.ofNat`. -/
def apoChar : Char := Char.ofNat 39

/-- Character class of the regex `[A-Za-zÀ-ÿ0-9']` in `_tokenize`
(aquery_rag.py line 18).  Note the range `À`–`ÿ` (U+00C0–U+00FF) contains
the non-letters `×` (U+00D7) and `÷` (U+00F7). -/
def isWordChar (c : Char) : Bool :=
  ('A' ≤ c && c ≤ 'Z') || ('a' ≤ c && c ≤ 'z') || ('0' ≤ c && c ≤ '9')
    || c == apoChar || ('À' ≤ c && c ≤ 'ÿ')

/-- Model of Python `str.lower()`, character-wise; exact for code points
below U+0100 (ASCII `A`–`Z` and Latin-1 `À`–`Þ` except `×` shift by 32,
everything else in that range is unchanged). -/
def pyLowerChar (c : Char) : Char :=
  if 'A' ≤ c && c ≤ 'Z' then Char.ofNat (c.toNat + 32)
  else if 'À' ≤ c && c ≤ 'Þ' && c != '×' then Char.ofNat (c.toNat + 32)
  else c

/-- Model of Python `str.lower()` on a character list. -/
def pyLower (s : List Char) : List Char := s.map pyLowerChar

/-- Helper: `dropWhile` never lengthens a list. -/
theorem length_dropWhile_le' (p : Char → Bool) (l : List Char) :
    (l.dropWhile p).length ≤ l.length := by
  induction l with
  | nil => simp
  | cons a l ih =>
    rw [List.dropWhile_cons]
    split
    · exact Nat.le_succ_of_le ih
    · simp

/-- Maximal runs of characters satisfying `p`, in order of occurrence,
written with `takeWhile` and `dropWhile` spans: the specification-style
statement of what `re.findall` extracts with a greedy character class. -/
def runs (p : Char → Bool) : List Char → List (List Char)
  | [] => []
  | c :: cs =>
    if p c then (c :: cs.takeWhile p) :: runs p (cs.dropWhile p)
    else runs p cs
termination_by l => l.length
decreasing_by
  · exact Nat.lt_succ_of_le (length_dropWhile_le' p cs)
  · exact Nat.lt_succ_self _

/-- Character-by-character scan splitting a string at the characters that
fail `p`: each non-matching character is dropped and closes the current
chunk, so the non-empty chunks are exactly the maximal runs of matching
characters (proved against `runs` below). -/
def chunks (p : Char → Bool) : List Char → List (List Char)
  | [] => [[]]
  | c :: cs =>
    match chunks p cs with
    | r :: rs => if p c then (c :: r) :: rs else [] :: r :: rs
    | [] => [[c]]

/-- Model of `_tokenize` (aquery_rag.py lines 17–18):
`re.findall` with pattern `[A-Za-zÀ-ÿ0-9']` repeated at least twice over
the lowercased text, i.e. the maximal word-character runs of length at
least 2, realised by the scan `chunks` (runs of length below 2 — in
particular the empty chunks at non-matching characters — are dropped). -/
def _tokenize (s : String) : List String :=
  ((chunks isWordChar (pyLower s.toList)).filter (fun r => 2 ≤ r.length)).map
    (fun r => String.mk r)

/-- Modelled from the spec: a Unicode letter (spec section 4.1 says the
tokenizer keeps runs of Unicode letters, digits and apostrophes).  Exact
for code points below U+0100: ASCII letters plus the Latin-1 letters
`ª`, `µ`, `º` and `À`–`ÿ` excluding the symbols `×` and `÷`. -/
def isUnicodeLetterL1 (c : Char) : Bool :=
  ('A' ≤ c && c ≤ 'Z') || ('a' ≤ c && c ≤ 'z') || c == 'ª' || c == 'µ' || c == 'º'
    || ('À' ≤ c && c ≤ 'ÿ' && c != '×' && c != '÷')

/-- Modelled from the spec: the character class the spec ascribes to the
tokenizer (Unicode letters, digits, apostrophes). -/
def isSpecTokenChar (c : Char) : Bool :=
  isUnicodeLetterL1 c || c.isDigit || c == apoChar

/-- Model of Python whitespace (`str.strip`, regex `\s`); exact for code
points below U+0100: tab through carriage return, space, the separator
block U+001C–U+001F, next line U+0085 and no-break space U+00A0. -/
def isPySpace (c : Char) : Bool :=
  (9 ≤ c.toNat && c.toNat ≤ 13) || c.toNat == 32
    || (28 ≤ c.toNat && c.toNat ≤ 31) || c.toNat == 133 || c.toNat == 160

/-- Model of Python `str.strip()`. -/
def pyStrip (s : List Char) : List Char :=
  ((s.dropWhile isPySpace).reverse.dropWhile isPySpace).reverse

/-- Sentence-terminal characters of the lookbehind `(?<=[.!?])`. -/
def isTermChar (c : Char) : Bool := c == '.' || c == '!' || c == '?'

/-- Raw parts of `re.split` with pattern `(?<=[.!?])` before `\s` one or
more times: split at each maximal whitespace run immediately preceded by a
terminal character, dropping the run.  `skipping` is true while inside a
dropped whitespace run; `prevTerm` records whether the previous character
was terminal (the lookbehind).  The part currently being scanned is
accumulated as the head of the returned list. -/
def sentSplitAux (skipping prevTerm : Bool) : List Char → List (List Char)
  | [] => [[]]
  | c :: cs =>
    if skipping && isPySpace c then
      sentSplitAux true false cs
    else if prevTerm && isPySpace c then
      [] :: sentSplitAux true false cs
    else
      match sentSplitAux false (isTermChar c) cs with
      | r :: rs => (c :: r) :: rs
      | [] => [[c]]

/-- Model of `_sentences` (aquery_rag.py lines 12–14): split the stripped
text after terminal punctuation, strip each part, drop empty parts. -/
def _sentences (s : String) : List String :=
  (((sentSplitAux false false (pyStrip s.toList)).map pyStrip).filter
      (fun p => p ≠ [])).map (fun r => String.mk r)

/-- Distinct-token overlap: the size of the intersection of the query token
set with the sentence token set (`len(q & set(_tokenize(s)))`).  The query
is passed as a token list; `dedup` realises the Python `set`. -/
def overlapCount (q : List String) (s : String) : ℕ :=
  (q.dedup.filter (fun t => t ∈ _tokenize s)).length

/-- Scan for `collapseWS`: `inRun` is true while inside a whitespace run
whose replacement space has already been emitted. -/
def collapseAux (inRun : Bool) : List Char → List Char
  | [] => []
  | c :: cs =>
    if isPySpace c then
      if inRun then collapseAux true cs else ' ' :: collapseAux true cs
    else c :: collapseAux false cs

/-- Model of `re.sub` replacing each maximal whitespace run by one space. -/
def collapseWS (l : List Char) : List Char := collapseAux false l

/-- Python slicing `l[:k]` with an `Int` bound: a negative `k` counts from
the end of the list. -/
def pySliceTake {α : Type} (k : Int) (l : List α) : List α :=
  if k < 0 then l.take (l.length - k.natAbs) else l.take k.toNat

/-- Truncation step of `_best_excerpt` (lines 131–133): when the string is
longer than `maxChars`, keep the slice `[: maxChars - 1]` and append the
ellipsis character. -/
def truncateEll (maxChars : Int) (s : String) : String :=
  if maxChars < (s.length : Int) then
    String.mk (pySliceTake (maxChars - 1) s.toList) ++ "…"
  else s

/-- One step of the selection loop of `_best_excerpt` (lines 123–127):
state is the running best sentence and best score, replaced on strict
improvement (so the first sentence attaining the maximum wins). -/
def bestStep (q : List String) (acc : String × Int) (s : String) : String × Int :=
  if acc.2 < (overlapCount q s : Int) then (s, (overlapCount q s : Int)) else acc

/-- Model of `_best_excerpt` (aquery_rag.py lines 118–133): run the
selection loop over the sentences, fall back to the stripped text when the
loop produced the empty string (i.e. there were no sentences), collapse
whitespace, truncate. -/
def _best_excerpt (text query : String) (maxChars : Int) : String :=
  truncateEll maxChars (String.mk (collapseWS
    (if ((_sentences text).foldl (bestStep (_tokenize query)) ("", -1)).1 = ""
     then String.mk (pyStrip text.toList)
     else ((_sentences text).foldl (bestStep (_tokenize query)) ("", -1)).1).toList))

/-- The excerpt `_best_excerpt` actually produces, described directly: the
first sentence of maximal overlap (`List.argmax` keeps the first of equal
maxima), the stripped text when there are no sentences,
whitespace-collapsed, truncated. -/
def excerptSpec (text query : String) (maxChars : Int) : String :=
  truncateEll maxChars (String.mk (collapseWS
    (match (_sentences text).argmax (fun s => overlapCount (_tokenize query) s) with
     | some b => b
     | none => String.mk (pyStrip text.toList)).toList))

/-- Sort key of `semantic_compress` (line 112): Python sorts ascending by
the tuple of negated overlap and negated length, so `x` sorts before (or
ties with) `y` exactly under this relation. -/
def ssLe (x y : ℕ × String) : Prop :=
  y.1 < x.1 ∨ (x.1 = y.1 ∧ y.2.length ≤ x.2.length)

instance ssLeDec : DecidableRel ssLe := fun x y => by
  unfold ssLe; infer_instance

/-- Model of `" ".join`. -/
def joinSpace : List String → String
  | [] => ""
  | [s] => s
  | s :: rest => s ++ " " ++ joinSpace rest

/-- Result record of `semantic_compress` (the `max_sentences` echo field is
the argument itself and is omitted). -/
structure CompressResult where
  compressed : String
  sentences : List String
deriving DecidableEq

/-- Model of `semantic_compress` (aquery_rag.py lines 103–116): score every
sentence by distinct-token overlap, stable-sort by descending overlap then
descending length (Python `list.sort` is stable, as is `List.insertionSort`),
slice to `maxSentences`, keep the positive-overlap sentences, and fall back
to the first `maxSentences` sentences when none remain. -/
def semantic_compress (text query : String) (maxSentences : Int) : CompressResult :=
  let q := _tokenize query
  let sent := _sentences text
  let scored := sent.map (fun s => (overlapCount q s, s))
  let sorted := scored.insertionSort ssLe
  let keep := ((pySliceTake maxSentences sorted).filter (fun p => 0 < p.1)).map (fun p => p.2)
  let keep := if keep = [] then pySliceTake maxSentences sent else keep
  { compressed := joinSpace keep, sentences := keep }

section Bm25

variable (K : Type) [LinearOrderedField K]

/-- Model of the dataclass `_BM25` (aquery_rag.py lines 136–142): tokenized
documents, the idf table (a total function, returning 0 outside the table
as `dict.get(t, 0.0)` does), average document length and the constants
`k1`, `b`. -/
structure _BM25 where
  docs : List (List String)
  idf : String → K
  avgdl : K
  k1 : K
  b : K

variable {K}

/-- Document frequency of a term: in how many documents it occurs. -/
def docFreq (docs : List (List String)) (t : String) : ℕ :=
  docs.countP (fun d => decide (t ∈ d))

/-- Model of `_BM25.from_docs` (lines 144–154): `N = len(tokenized) or 1`,
document frequencies, `idf(t) = log(1 + (N - f + 0.5) / (f + 0.5))` for
seen terms, and `avgdl` the token-count average over `max(len, 1)`. -/
def _BM25.fromDocs (log : K → K) (texts : List String) : _BM25 K :=
  let tokenized := texts.map _tokenize
  let N : ℕ := max tokenized.length 1
  { docs := tokenized
    idf := fun t =>
      let f := docFreq tokenized t
      if f = 0 then 0 else log (1 + ((N : K) - (f : K) + 1 / 2) / ((f : K) + 1 / 2))
    avgdl := (((tokenized.map List.length).sum : ℕ) : K) / ((max tokenized.length 1 : ℕ) : K)
    k1 := 3 / 2
    b := 3 / 4 }

/-- Inner scoring loop of `_BM25.score` (lines 160–172), generalised to an
arbitrary term-frequency map `tf` and document token length `dl` (the loop
reads the document only through these two): skip query terms absent from
the document, otherwise add
`idf(t) * (f * (k1 + 1)) / (f + k1 * (1 - b + b * (dl' / avgdl')) + 1e-9)`
with `dl' = dl or 1` and `avgdl' = avgdl or 1.0`. -/
def scoreTF (idf : String → K) (k1 b avgdl : K) (qTerms : List String)
    (tf : String → ℕ) (dl : ℕ) : K :=
  qTerms.foldl
    (fun acc t =>
      if tf t = 0 then acc
      else
        acc + idf t * ((tf t : K) * (k1 + 1)) /
          (((tf t : K) + k1 * (1 - b + b * (((max dl 1 : ℕ) : K) /
              (if avgdl = 0 then 1 else avgdl)))) + 1 / 1000000000))
    0

/-- Model of `_BM25.score` (lines 156–173): one score per document, in
corpus order; the per-document `tf` dict is realised by `List.count`. -/
def _BM25.score (bm : _BM25 K) (query : String) : List K :=
  bm.docs.map (fun doc =>
    scoreTF bm.idf bm.k1 bm.b bm.avgdl (_tokenize query) (fun t => doc.count t) doc.length)

/-- Modelled from the spec (sections 4.4 and 4.5): the closed-form BM25
contribution of one query term, with `N` the corpus size, `df` the document
frequency, `tf` the term frequency in the document, `dl` the document token
length and `avgdl` the average document length. -/
def bm25SpecTerm (log : K → K) (N df tf dl : ℕ) (avgdl : K) : K :=
  (if df = 0 then 0 else log (1 + ((N : K) - (df : K) + 1 / 2) / ((df : K) + 1 / 2))) *
    ((tf : K) * (3 / 2 + 1)) /
    ((tf : K) + (3 / 2) * (1 - 3 / 4 + (3 / 4) * ((dl : K) / avgdl)) + 1 / 1000000000)

/-- Modelled from the spec: the BM25 score of document `i` as the sum of
the closed-form contributions of the query terms. -/
def bm25SpecScore (log : K → K) (texts : List String) (query : String) (i : ℕ) : K :=
  let docs := texts.map _tokenize
  let d := docs.getD i []
  let avgdl : K := (((docs.map List.length).sum : ℕ) : K) / ((texts.length : ℕ) : K)
  ((_tokenize query).map
    (fun t => bm25SpecTerm log texts.length (docFreq docs t) (d.count t) d.length avgdl)).sum

/-- Order used by the stable refinement `argsortDesc` below: descending
score, ties by ascending index. -/
def rankLE (scores : List K) (i j : ℕ) : Prop :=
  scores.getD j 0 < scores.getD i 0 ∨ (scores.getD i 0 = scores.getD j 0 ∧ i ≤ j)

instance rankLEDec (scores : List K) : DecidableRel (rankLE scores) := fun i j => by
  unfold rankLE; infer_instance

/-- One admissible realisation of `np.argsort(-np.array(scores))`: the
stable argsort.  NumPy's default sort (quicksort) guarantees only the
ordering of the keyed values, not the relative order of ties, so this
executable refinement over-determines tie order; the faithful model of the
library call is the relation `ArgsortSpec` below, of which `argsortDesc`
is proved to be one admissible outcome.  The deterministic refinement is
used only where the statement's content is insensitive to tie order
(result-list lengths; tie-free score lists). -/
def argsortDesc (scores : List K) : List ℕ :=
  (List.range scores.length).insertionSort (rankLE scores)

/-- Model of the documented contract of `np.argsort(-np.array(scores))`
with the default sort kind: `idx` is a permutation of the index range that
lists the scores in descending order.  The default kind (quicksort) is not
stable, so nothing constrains the relative order of equal scores: every
`idx` satisfying this contract is an admissible outcome of the library
call. -/
def ArgsortSpec (scores : List K) (idx : List ℕ) : Prop :=
  List.Perm idx (List.range scores.length) ∧
  idx.Pairwise (fun i j => scores.getD j 0 ≤ scores.getD i 0)

variable (K) in
/-- One entry of the `search` result list; `idx` is the document position
in the corpus (the result fields `id` and `source` are the stored ones of
that document — `id` defaulting to the 1-based position — so `idx`
determines them). -/
structure SearchResult where
  idx : ℕ
  score : K
  excerpt : String

/-- Model of `AQueryRAG.search` (lines 68–101) on the BM25 backend (lines
88–101) under the stable argsort refinement: empty-corpus short-circuit,
per-document scores, argsort of the negated scores, Python slice to
`top_k`, result assembly with excerpts.  The contract-level model quantifying
over every admissible argsort outcome is `searchBM25Spec` below. -/
def searchBM25 (log : K → K) (texts : List String) (query : String) (topK : Int) :
    List (SearchResult K) :=
  if texts = [] then []
  else
    (pySliceTake topK (argsortDesc ((_BM25.fromDocs log texts).score query))).map (fun i =>
      { idx := i, score := ((_BM25.fromDocs log texts).score query).getD i 0
        excerpt := _best_excerpt (texts.getD i "") query 320 })

/-- Contract-level model of `AQueryRAG.search` on the BM25 backend:
`res` is an admissible return value of `search(query, top_k)` — the
ranking permutation is any outcome of the under-specified
`np.argsort(-scores)` (see `ArgsortSpec`), then sliced and assembled
exactly as the code does. -/
def searchBM25Spec (log : K → K) (texts : List String) (query : String) (topK : Int)
    (res : List (SearchResult K)) : Prop :=
  if texts = [] then res = []
  else
    ∃ idx, ArgsortSpec ((_BM25.fromDocs log texts).score query) idx ∧
      res = (pySliceTake topK idx).map (fun i =>
        { idx := i, score := ((_BM25.fromDocs log texts).score query).getD i 0
          excerpt := _best_excerpt (texts.getD i "") query 320 })

variable (K) in
/-- Mutable fields of the dataclass `AQueryRAG` (lines 29–32): the corpus
texts and the backend slots.  The contents of `_tfidf_vectorizer` and
`_tfidf_matrix` live inside scikit-learn, so only their presence is
modelled. -/
structure RAGState where
  docs : List String
  tfidfVec : Bool
  tfidfMat : Bool
  bm25 : Option (_BM25 K)

variable (K) in
/-- The freshly constructed engine: empty corpus, no backend. -/
def initState : RAGState K :=
  { docs := [], tfidfVec := false, tfidfMat := false, bm25 := none }

/-- Model of `_rebuild_indexes` (lines 53–66).  `importOk` says whether the
scikit-learn import succeeds, `fitOk` whether vectorizer construction and
`fit_transform` succeed; any failure inside the `try` lands in the `except`
branch, which builds the BM25 fallback.  With the import available and an
empty corpus the method clears the dense slots and returns early, leaving
`_bm25` untouched. -/
def rebuild (log : K → K) (importOk fitOk : Bool) (st : RAGState K) : RAGState K :=
  if importOk then
    if st.docs = [] then { st with tfidfVec := false, tfidfMat := false }
    else if fitOk then { st with tfidfVec := true, tfidfMat := true, bm25 := none }
    else { st with tfidfVec := false, tfidfMat := false,
                   bm25 := some (_BM25.fromDocs log st.docs) }
  else { st with tfidfVec := false, tfidfMat := false,
                 bm25 := some (_BM25.fromDocs log st.docs) }

/-- Model of `add_documents` (lines 34–51): append the entries that carry a
text (`none` models an entry without a `"text"` key, which is skipped),
then rebuild the indexes. -/
def addDocuments (log : K → K) (importOk fitOk : Bool) (entries : List (Option String))
    (st : RAGState K) : RAGState K :=
  rebuild log importOk fitOk { st with docs := st.docs ++ entries.filterMap id }

/-- Model of the `search` dispatch (lines 68–101): `none` models the
`AttributeError` raised when the corpus is non-empty but neither backend is
set; the dense path's scores come from scikit-learn and are modelled by the
oracle `denseScores`. -/
def stateSearch (denseScores : String → List K) (st : RAGState K) (query : String)
    (topK : Int) : Option (List (SearchResult K)) :=
  if st.docs = [] then some []
  else if st.tfidfVec && st.tfidfMat then
    let scores := denseScores query
    some ((pySliceTake topK (argsortDesc scores)).map (fun i =>
      { idx := i, score := scores.getD i 0
        excerpt := _best_excerpt (st.docs.getD i "") query 320 }))
  else
    match st.bm25 with
    | some bm =>
      let scores := bm.score query
      some ((pySliceTake topK (argsortDesc scores)).map (fun i =>
        { idx := i, score := scores.getD i 0
          excerpt := _best_excerpt (st.docs.getD i "") query 320 }))
    | none => none

/-- States reachable through the public mutation entry point
`add_documents`, under arbitrary per-rebuild capability outcomes. -/
inductive Reachable (log : K → K) : RAGState K → Prop
  | init : Reachable log (initState K)
  | step (importOk fitOk : Bool) (entries : List (Option String)) {st : RAGState K} :
      Reachable log st → Reachable log (addDocuments log importOk fitOk entries st)

end Bm25

/-! ## Tokenizer: maximal-run extraction -/

theorem chunks_cons (p : Char → Bool) (c : Char) (cs : List Char) {r : List Char}
    {rs : List (List Char)} (h : chunks p cs = r :: rs) :
    chunks p (c :: cs) = if p c then (c :: r) :: rs else [] :: r :: rs := by
  rw [chunks, h]

theorem chunks_ne_nil (p : Char → Bool) (l : List Char) :
    ∃ r rs, chunks p l = r :: rs := by
  induction l with
  | nil => exact ⟨[], [], rfl⟩
  | cons c cs ih =>
    obtain ⟨r, rs, h⟩ := ih
    rw [chunks_cons p c cs h]
    split
    · exact ⟨_, _, rfl⟩
    · exact ⟨_, _, rfl⟩

theorem chunks_append_of_allP {p : Char → Bool} (t : List Char)
    (ht : ∀ c ∈ t, p c = true) {cs r : List Char} {rs : List (List Char)}
    (h : chunks p cs = r :: rs) : chunks p (t ++ cs) = (t ++ r) :: rs := by
  induction t with
  | nil => simpa using h
  | cons a t ih =>
    have ha : p a = true := ht a (by simp)
    have ih' := ih (fun c hc => ht c (by simp [hc]))
    rw [List.cons_append, chunks_cons p a (t ++ cs) ih', if_pos ha]
    simp

theorem dropWhile_head_false (p : Char → Bool) :
    ∀ (l : List Char) {d : Char} {ds : List Char}, l.dropWhile p = d :: ds → p d = false := by
  intro l
  induction l with
  | nil => intro d ds h; simp [List.dropWhile] at h
  | cons a l ih =>
    intro d ds h
    rw [List.dropWhile_cons] at h
    by_cases hpa : p a = true
    · rw [if_pos hpa] at h; exact ih h
    · rw [if_neg hpa] at h
      cases h
      exact Bool.not_eq_true _ |>.mp hpa

theorem runs_eq_chunks (p : Char → Bool) :
    ∀ (n : ℕ) (l : List Char), l.length ≤ n →
      runs p l = (chunks p l).filter (fun r => r ≠ []) := by
  intro n
  induction n with
  | zero =>
    intro l hl
    have hnil : l = [] := List.length_eq_zero.mp (Nat.le_zero.mp hl)
    subst hnil
    simp [runs, chunks]
  | succ n ih =>
    intro l hl
    cases l with
    | nil => simp [runs, chunks]
    | cons c cs =>
      have hsplit : cs.takeWhile p ++ cs.dropWhile p = cs :=
        List.takeWhile_append_dropWhile p cs
      by_cases hpc : p c = true
      · have hruns : runs p (c :: cs) = (c :: cs.takeWhile p) :: runs p (cs.dropWhile p) := by
          rw [runs, if_pos hpc]
        have htake : ∀ x ∈ c :: cs.takeWhile p, p x = true := by
          intro x hx
          rcases List.mem_cons.mp hx with h | h
          · exact h ▸ hpc
          · exact List.mem_takeWhile_imp h
        rcases hrest : cs.dropWhile p with _ | ⟨d, ds⟩
        · -- the whole of cs matches p
          have hcs : cs.takeWhile p = cs := by
            have h0 := hsplit; rw [hrest, List.append_nil] at h0; exact h0
          have hch : chunks p ((c :: cs.takeWhile p) ++ ([] : List Char)) =
              ((c :: cs.takeWhile p) ++ []) :: ([] : List (List Char)) :=
            chunks_append_of_allP _ htake (by rw [chunks])
          rw [List.append_nil] at hch
          rw [hcs] at hch
          rw [hruns, hrest, hch]
          simp [runs, hcs]
        · have hd : p d = false := dropWhile_head_false p cs hrest
          have hlen : ds.length ≤ n := by
            have h1 : (cs.dropWhile p).length ≤ cs.length := length_dropWhile_le' p cs
            rw [hrest] at h1
            simp only [List.length_cons] at h1 hl
            omega
          obtain ⟨r, rs, hds⟩ := chunks_ne_nil p ds
          have hch2 : chunks p (d :: ds) = [] :: r :: rs := by
            rw [chunks_cons p d ds hds, if_neg (by simp [hd])]
          have hcs2 : (c :: cs.takeWhile p) ++ (d :: ds) = c :: cs := by
            rw [List.cons_append, ← hrest, hsplit]
          have hch : chunks p (c :: cs) = ((c :: cs.takeWhile p) ++ []) :: r :: rs := by
            rw [← hcs2]
            exact chunks_append_of_allP _ htake hch2
          rw [List.append_nil] at hch
          have hrun_ds : runs p (d :: ds) = runs p ds := by
            rw [runs, if_neg (by simp [hd])]
          rw [hruns, hrest, hrun_ds, ih ds hlen, hch, hds]
          simp
      · have hruns : runs p (c :: cs) = runs p cs := by
          rw [runs, if_neg (by simp [hpc])]
        obtain ⟨r, rs, hcsch⟩ := chunks_ne_nil p cs
        have hch : chunks p (c :: cs) = [] :: r :: rs := by
          rw [chunks_cons p c cs hcsch, if_neg (by simp [hpc])]
        rw [hruns, hch, ih cs (by simp only [List.length_cons] at hl; omega), hcsch]
        simp

/-- C7 (counterexample).  The multiplication sign `×` (U+00D7) is matched
by the code's character class `A`–`Z`, `a`–`z`, `À`–`ÿ`, `0`–`9`, `'`
although it is not a Unicode letter, digit or apostrophe: on the input
`"××"` the maximal runs of spec-class characters of length at least 2 are
empty, yet `_tokenize` returns the token `"××"`. -/
theorem c7_counterexample :
    ((chunks isSpecTokenChar (pyLower (String.toList "××"))).filter
        (fun r => 2 ≤ r.length)).map (fun r => String.mk r) = [] ∧
    isSpecTokenChar '×' = false ∧
    _tokenize "××" = ["××"] := by
  refine ⟨by decide, by decide, by decide⟩

/-- C7 (amended).  `_tokenize` returns exactly the maximal runs, of length
at least 2, of characters of the class `A`–`Z`, `a`–`z`, `0`–`9`,
apostrophe, `À`–`ÿ` (U+00C0–U+00FF, which contains the non-letters `×` and
`÷`; Unicode letters beyond U+00FF are dropped), over the lowercased text,
in order of occurrence; all other characters are dropped, the function is
total and deterministic, and the empty input yields the empty sequence.
Maximal runs are stated through the span-based formulation `runs`
(greedy `takeWhile` spans after each non-matching prefix). -/
theorem c7_tokenize_amended (s : String) :
    _tokenize s =
      ((runs isWordChar (pyLower s.toList)).filter (fun r => 2 ≤ r.length)).map
        (fun r => String.mk r) ∧
    _tokenize "" = [] := by
  refine ⟨?_, rfl⟩
  unfold _tokenize
  rw [runs_eq_chunks isWordChar (pyLower s.toList).length _ le_rfl]
  rw [List.filter_filter]
  congr 1
  apply List.filter_congr
  intro r _
  rcases r with _ | ⟨a, r⟩
  · simp
  · simp [Nat.succ_le_succ_iff]

/-! ## BM25 scoring: fold as a sum, and the spec formula -/

section Bm25Lemmas

variable {K : Type} [LinearOrderedField K]

theorem fromDocs_docs (log : K → K) (texts : List String) :
    (_BM25.fromDocs log texts).docs = texts.map _tokenize := rfl

theorem fromDocs_k1 (log : K → K) (texts : List String) :
    (_BM25.fromDocs log texts).k1 = 3 / 2 := rfl

theorem fromDocs_b (log : K → K) (texts : List String) :
    (_BM25.fromDocs log texts).b = 3 / 4 := rfl

theorem fromDocs_idf (log : K → K) (texts : List String) :
    (_BM25.fromDocs log texts).idf = fun t =>
      if docFreq (texts.map _tokenize) t = 0 then 0
      else log (1 + (((max (texts.map _tokenize).length 1 : ℕ) : K) -
          ((docFreq (texts.map _tokenize) t : ℕ) : K) + 1 / 2) /
        (((docFreq (texts.map _tokenize) t : ℕ) : K) + 1 / 2)) := rfl

theorem fromDocs_avgdl (log : K → K) (texts : List String) :
    (_BM25.fromDocs log texts).avgdl =
      ((((texts.map _tokenize).map List.length).sum : ℕ) : K) /
        ((max (texts.map _tokenize).length 1 : ℕ) : K) := rfl

/-- A fold that either skips an element or adds its contribution is the sum
of the per-element contributions. -/
theorem foldl_cond_add_eq_sum {M : Type} [AddCommMonoid M] (f : String → M)
    (c : String → Prop) [DecidablePred c] :
    ∀ (q : List String) (a : M),
      q.foldl (fun acc t => if c t then acc else acc + f t) a
        = a + (q.map (fun t => if c t then 0 else f t)).sum := by
  intro q
  induction q with
  | nil => intro a; simp
  | cons t q ih =>
    intro a
    simp only [List.foldl_cons, List.map_cons, List.sum_cons]
    by_cases h : c t
    · rw [if_pos h, if_pos h, ih, zero_add]
    · rw [if_neg h, if_neg h, ih, add_assoc]

/-- The scoring loop, written as a sum over the query terms. -/
theorem scoreTF_eq_sum (idf : String → K) (k1 b avgdl : K) (q : List String)
    (tf : String → ℕ) (dl : ℕ) :
    scoreTF idf k1 b avgdl q tf dl =
      (q.map (fun t =>
        if tf t = 0 then 0
        else idf t * ((tf t : K) * (k1 + 1)) /
          (((tf t : K) + k1 * (1 - b + b * (((max dl 1 : ℕ) : K) /
              (if avgdl = 0 then 1 else avgdl)))) + 1 / 1000000000))).sum := by
  unfold scoreTF
  rw [foldl_cond_add_eq_sum (fun t =>
      idf t * ((tf t : K) * (k1 + 1)) /
        (((tf t : K) + k1 * (1 - b + b * (((max dl 1 : ℕ) : K) /
            (if avgdl = 0 then 1 else avgdl)))) + 1 / 1000000000))
      (fun t => tf t = 0) q 0, zero_add]

theorem score_length (bm : _BM25 K) (query : String) :
    (bm.score query).length = bm.docs.length := by
  simp [_BM25.score]

theorem score_getD (bm : _BM25 K) (query : String) (i : ℕ) (hi : i < bm.docs.length) :
    (bm.score query).getD i 0 =
      scoreTF bm.idf bm.k1 bm.b bm.avgdl (_tokenize query)
        (fun t => (bm.docs.getD i []).count t) (bm.docs.getD i []).length := by
  unfold _BM25.score
  rw [List.getD_eq_getElem _ _ (by simpa using hi), List.getElem_map,
    List.getD_eq_getElem _ _ hi]

end Bm25Lemmas

/-- C4.  Under the BM25 backend, the score of document `i` for query `q`
is the spec's closed-form sum: over the query terms `t`,
`idf(t) * (tf[t] * (k1+1)) / (tf[t] + k1 * (1 - b + b * dl/avgdl) + eps)`
with `k1 = 3/2`, `b = 3/4`, `eps = 10^-9`,
`idf(t) = ln(1 + (N - df + 1/2) / (df + 1/2))` for `N` the corpus size and
`df` the document frequency (0 for unseen terms), `tf` the term count in
the document and `dl` its token length. -/
theorem c4_bm25_formula (texts : List String) (query : String) (i : ℕ)
    (hi : i < texts.length) :
    ((_BM25.fromDocs Real.log texts).score query).getD i 0 =
      bm25SpecScore Real.log texts query i := by
  classical
  have hn : 1 ≤ texts.length := Nat.one_le_iff_ne_zero.mpr (by omega)
  have hdlen : (texts.map _tokenize).length = texts.length := by simp
  have hi' : i < (texts.map _tokenize).length := by omega
  rw [score_getD _ _ _ (by rw [fromDocs_docs]; exact hi')]
  rw [scoreTF_eq_sum]
  unfold bm25SpecScore
  simp only [fromDocs_docs, fromDocs_k1, fromDocs_b, fromDocs_idf, fromDocs_avgdl]
  congr 1
  apply List.map_congr_left
  intro t _
  set docs := texts.map _tokenize with hdocs
  set d : List String := docs.getD i [] with hd
  by_cases h0 : d.count t = 0
  · rw [if_pos h0]
    rw [bm25SpecTerm, h0]
    simp
  · rw [if_neg h0]
    have htmem : t ∈ d := by
      by_contra hmem
      exact h0 (List.count_eq_zero.mpr hmem)
    have hdl : 1 ≤ d.length := List.length_pos.mpr (by
      intro hnil; rw [hnil] at htmem; simp at htmem)
    have hmaxdl : max d.length 1 = d.length := max_eq_left hdl
    have hmaxn : max docs.length 1 = texts.length := by
      rw [hdocs]; rw [hdlen]; exact max_eq_left hn
    have hdmem : d ∈ docs := by
      rw [hd]
      rw [List.getD_eq_getElem _ _ hi']
      exact List.getElem_mem _
    have hsum : d.length ≤ (docs.map List.length).sum :=
      List.single_le_sum (fun x _ => Nat.zero_le x) _ (List.mem_map_of_mem _ hdmem)
    have hsumpos : 0 < (((docs.map List.length).sum : ℕ) : ℝ) := by
      have : 1 ≤ (docs.map List.length).sum := le_trans hdl hsum
      exact_mod_cast this
    have havg : (((docs.map List.length).sum : ℕ) : ℝ) / ((max docs.length 1 : ℕ) : ℝ) ≠ 0 := by
      apply ne_of_gt
      apply div_pos hsumpos
      have : 0 < max docs.length 1 := by omega
      exact_mod_cast this
    rw [if_neg havg, bm25SpecTerm]
    rw [hmaxdl, hmaxn]

/-! ## BM25 algebra: multiset query, non-negativity, monotonicity -/

theorem map_sum_le_map_sum (q : List String) (f g : String → ℝ)
    (h : ∀ t ∈ q, f t ≤ g t) : (q.map f).sum ≤ (q.map g).sum := by
  induction q with
  | nil => simp
  | cons t q ih =>
    simp only [List.map_cons, List.sum_cons]
    exact add_le_add (h t (by simp)) (ih fun s hs => h s (by simp [hs]))

theorem scoreTF_singleton {K : Type} [LinearOrderedField K] (idf : String → K)
    (k1 b avgdl : K) (t : String) (tf : String → ℕ) (dl : ℕ) :
    scoreTF idf k1 b avgdl [t] tf dl =
      (if tf t = 0 then 0
       else idf t * ((tf t : K) * (k1 + 1)) /
         (((tf t : K) + k1 * (1 - b + b * (((max dl 1 : ℕ) : K) /
             (if avgdl = 0 then 1 else avgdl)))) + 1 / 1000000000)) := by
  rw [scoreTF_eq_sum]
  simp

/-- C10.  The BM25 scoring loop treats the query as a sequence of token
occurrences, not a set: scoring is additive in the query
(`score (t :: q) = score [t] + score q`), so the score of a query equals,
over its distinct terms, the term's multiplicity times its
single-occurrence contribution — deduplicating the query therefore changes
every score whose repeated terms contribute non-zero, and hence can change
the ranking. -/
theorem c10_query_multiset (idf : String → ℝ) (k1 b avgdl : ℝ) (q : List String)
    (tf : String → ℕ) (dl : ℕ) :
    (∀ t : String, scoreTF idf k1 b avgdl (t :: q) tf dl =
        scoreTF idf k1 b avgdl [t] tf dl + scoreTF idf k1 b avgdl q tf dl) ∧
    scoreTF idf k1 b avgdl q tf dl =
      ∑ t ∈ q.toFinset, (q.count t : ℝ) * scoreTF idf k1 b avgdl [t] tf dl := by
  constructor
  · intro t
    rw [scoreTF_eq_sum idf k1 b avgdl (t :: q) tf dl,
      scoreTF_eq_sum idf k1 b avgdl q tf dl,
      scoreTF_singleton idf k1 b avgdl t tf dl]
    simp
  · rw [scoreTF_eq_sum]
    rw [Finset.sum_list_map_count]
    apply Finset.sum_congr rfl
    intro t _
    rw [scoreTF_singleton, nsmul_eq_mul]

theorem idf_fromDocs_nonneg (texts : List String) (t : String) :
    0 ≤ (_BM25.fromDocs Real.log texts).idf t := by
  rw [fromDocs_idf]
  dsimp only
  split
  · exact le_refl 0
  · rename_i hdf
    apply Real.log_nonneg
    have hle : docFreq (texts.map _tokenize) t ≤ max (texts.map _tokenize).length 1 := by
      have h1 : docFreq (texts.map _tokenize) t ≤ (texts.map _tokenize).length :=
        List.countP_le_length _
      omega
    have hnum : (0 : ℝ) ≤ ((max (texts.map _tokenize).length 1 : ℕ) : ℝ) -
        ((docFreq (texts.map _tokenize) t : ℕ) : ℝ) + 1 / 2 := by
      have : ((docFreq (texts.map _tokenize) t : ℕ) : ℝ) ≤
          ((max (texts.map _tokenize).length 1 : ℕ) : ℝ) := by exact_mod_cast hle
      linarith
    have hden : (0 : ℝ) < ((docFreq (texts.map _tokenize) t : ℕ) : ℝ) + 1 / 2 := by
      positivity
    nlinarith [div_nonneg hnum (le_of_lt hden)]

theorem avgdl_fromDocs_nonneg (texts : List String) :
    0 ≤ (_BM25.fromDocs (K := ℝ) Real.log texts).avgdl := by
  rw [fromDocs_avgdl]
  positivity

/-- One scoring-loop contribution is non-negative whenever the idf value
and the average document length are. -/
theorem scoreTF_term_nonneg (idfv : ℝ) (hidf : 0 ≤ idfv) (avgdl : ℝ)
    (havg : 0 ≤ avgdl) (f dl : ℕ) :
    0 ≤ (if f = 0 then 0
      else idfv * ((f : ℝ) * (3 / 2 + 1)) /
        (((f : ℝ) + (3 / 2) * (1 - 3 / 4 + (3 / 4) * (((max dl 1 : ℕ) : ℝ) /
            (if avgdl = 0 then 1 else avgdl)))) + 1 / 1000000000)) := by
  split
  · exact le_refl 0
  · have hratio : (0 : ℝ) ≤ ((max dl 1 : ℕ) : ℝ) / (if avgdl = 0 then 1 else avgdl) := by
      apply div_nonneg (by positivity)
      split
      · norm_num
      · exact havg
    have hf : (0 : ℝ) ≤ (f : ℝ) := by positivity
    apply div_nonneg
    · positivity
    · nlinarith

theorem scoreTF_fromDocs_nonneg (texts : List String) (q : List String)
    (tf : String → ℕ) (dl : ℕ) :
    0 ≤ scoreTF (_BM25.fromDocs Real.log texts).idf (3 / 2) (3 / 4)
        (_BM25.fromDocs Real.log texts).avgdl q tf dl := by
  rw [scoreTF_eq_sum]
  apply List.sum_nonneg
  intro x hx
  obtain ⟨t, _, rfl⟩ := List.mem_map.mp hx
  exact scoreTF_term_nonneg _ (idf_fromDocs_nonneg texts t) _
    (avgdl_fromDocs_nonneg texts) _ _

/-- C8.  Under the BM25 backend every document score is non-negative, and
increasing a term's frequency while holding the document token length
fixed never decreases the score of a query containing that term (the
scoring loop reads the document only through the frequency map `tf` and
the length `dl`, so the variation is expressed on `scoreTF`). -/
theorem c8_nonneg_mono :
    (∀ (texts : List String) (query : String) (x : ℝ),
        x ∈ (_BM25.fromDocs Real.log texts).score query → 0 ≤ x) ∧
    (∀ (texts : List String) (q : List String) (tf tf' : String → ℕ)
        (dl : ℕ) (t0 : String),
        t0 ∈ q → tf t0 ≤ tf' t0 → (∀ s, s ≠ t0 → tf' s = tf s) →
        scoreTF (_BM25.fromDocs Real.log texts).idf (3 / 2) (3 / 4)
            (_BM25.fromDocs Real.log texts).avgdl q tf dl ≤
          scoreTF (_BM25.fromDocs Real.log texts).idf (3 / 2) (3 / 4)
            (_BM25.fromDocs Real.log texts).avgdl q tf' dl) := by
  constructor
  · intro texts query x hx
    unfold _BM25.score at hx
    obtain ⟨doc, _, rfl⟩ := List.mem_map.mp hx
    rw [show (_BM25.fromDocs Real.log texts).k1 = 3 / 2 from rfl,
      show (_BM25.fromDocs Real.log texts).b = 3 / 4 from rfl]
    exact scoreTF_fromDocs_nonneg texts _ _ _
  · intro texts q tf tf' dl t0 _ hle hother
    rw [scoreTF_eq_sum, scoreTF_eq_sum]
    apply map_sum_le_map_sum
    intro t _
    by_cases ht : t = t0
    · subst ht
      set A : ℝ := (3 / 2) * (1 - 3 / 4 + (3 / 4) * (((max dl 1 : ℕ) : ℝ) /
          (if (_BM25.fromDocs Real.log texts).avgdl = 0 then 1
           else (_BM25.fromDocs Real.log texts).avgdl))) with hA
      have hA0 : 0 ≤ A := by
        rw [hA]
        have hratio : (0 : ℝ) ≤ ((max dl 1 : ℕ) : ℝ) /
            (if (_BM25.fromDocs Real.log texts).avgdl = 0 then 1
             else (_BM25.fromDocs Real.log texts).avgdl) := by
          apply div_nonneg (by positivity)
          split
          · norm_num
          · exact avgdl_fromDocs_nonneg texts
        nlinarith
      have hidf : 0 ≤ (_BM25.fromDocs Real.log texts).idf t := idf_fromDocs_nonneg texts t
      by_cases h0 : tf t = 0
      · rw [if_pos h0]
        exact scoreTF_term_nonneg _ hidf _ (avgdl_fromDocs_nonneg texts) _ _
      · have h0' : tf' t ≠ 0 := by omega
        rw [if_neg h0, if_neg h0']
        have h1 : (1 : ℝ) ≤ (tf t : ℝ) := by exact_mod_cast Nat.one_le_iff_ne_zero.mpr h0
        have h12 : ((tf t : ℕ) : ℝ) ≤ ((tf' t : ℕ) : ℝ) := by exact_mod_cast hle
        have hda : (0 : ℝ) < (tf t : ℝ) + A + 1 / 1000000000 := by nlinarith
        have hdb : (0 : ℝ) < (tf' t : ℝ) + A + 1 / 1000000000 := by nlinarith
        rw [div_le_div_iff₀ hda hdb]
        have hkey : (tf t : ℝ) * (A + 1 / 1000000000) ≤ (tf' t : ℝ) * (A + 1 / 1000000000) :=
          mul_le_mul_of_nonneg_right h12 (by nlinarith)
        nlinarith [mul_le_mul_of_nonneg_left hkey (mul_nonneg hidf (by norm_num : (0:ℝ) ≤ 3/2 + 1))]
    · rw [hother t ht]

/-- Witness for C4 at a concrete input. -/
theorem c4_bm25_formula_witness :
    (0 : ℕ) < (["aa bb", "aa"] : List String).length ∧
    ((_BM25.fromDocs Real.log ["aa bb", "aa"]).score "aa").getD 0 0 =
      bm25SpecScore Real.log ["aa bb", "aa"] "aa" 0 :=
  ⟨by decide, c4_bm25_formula ["aa bb", "aa"] "aa" 0 (by decide)⟩

/-- Witness for C8 at a concrete input. -/
theorem c8_nonneg_mono_witness :
    (("aa" : String) ∈ (["aa"] : List String) ∧
      (fun s => if s = "aa" then (1 : ℕ) else 0) "aa" ≤
        (fun s => if s = "aa" then (2 : ℕ) else 0) "aa" ∧
      (∀ s : String, s ≠ "aa" →
        (fun s => if s = "aa" then (2 : ℕ) else 0) s =
          (fun s => if s = "aa" then (1 : ℕ) else 0) s) ∧
      ((_BM25.fromDocs Real.log ["aa"]).score "aa").getD 0 0 ∈
        (_BM25.fromDocs Real.log ["aa"]).score "aa") ∧
    (0 ≤ ((_BM25.fromDocs Real.log ["aa"]).score "aa").getD 0 0 ∧
      scoreTF (_BM25.fromDocs Real.log ["aa"]).idf (3 / 2) (3 / 4)
          (_BM25.fromDocs Real.log ["aa"]).avgdl ["aa"]
          (fun s => if s = "aa" then (1 : ℕ) else 0) 1 ≤
        scoreTF (_BM25.fromDocs Real.log ["aa"]).idf (3 / 2) (3 / 4)
          (_BM25.fromDocs Real.log ["aa"]).avgdl ["aa"]
          (fun s => if s = "aa" then (2 : ℕ) else 0) 1) := by
  have hlen : ((_BM25.fromDocs Real.log ["aa"]).score "aa").length = 1 := by
    rw [score_length]; rfl
  have hmem : ((_BM25.fromDocs Real.log ["aa"]).score "aa").getD 0 0 ∈
      (_BM25.fromDocs Real.log ["aa"]).score "aa" := by
    rw [List.getD_eq_getElem _ _ (by omega)]
    exact List.getElem_mem _
  refine ⟨⟨by decide, by decide, fun s hs => by simp [hs], hmem⟩, ?_, ?_⟩
  · exact c8_nonneg_mono.1 ["aa"] "aa" _ hmem
  · exact c8_nonneg_mono.2 ["aa"] ["aa"] _ _ 1 "aa" (by decide) (by decide)
      (fun s hs => by simp [hs])

/-! ## Ranking pipeline: order of results, slicing -/

section Ranking

variable {K : Type} [LinearOrderedField K]

theorem rankLE_total (scores : List K) (i j : ℕ) :
    rankLE scores i j ∨ rankLE scores j i := by
  rcases lt_trichotomy (scores.getD i 0) (scores.getD j 0) with h | h | h
  · right; exact Or.inl h
  · rcases Nat.le_total i j with hij | hij
    · exact Or.inl (Or.inr ⟨h, hij⟩)
    · exact Or.inr (Or.inr ⟨h.symm, hij⟩)
  · left; exact Or.inl h

theorem rankLE_trans (scores : List K) (i j k : ℕ)
    (h1 : rankLE scores i j) (h2 : rankLE scores j k) : rankLE scores i k := by
  rcases h1 with h1 | ⟨h1e, h1le⟩ <;> rcases h2 with h2 | ⟨h2e, h2le⟩
  · exact Or.inl (h2.trans h1)
  · exact Or.inl (h2e ▸ h1)
  · exact Or.inl (h1e ▸ h2)
  · exact Or.inr ⟨h1e.trans h2e, h1le.trans h2le⟩

theorem argsortDesc_sorted (scores : List K) :
    (argsortDesc scores).Pairwise (rankLE scores) := by
  haveI : IsTotal ℕ (rankLE scores) := ⟨rankLE_total scores⟩
  haveI : IsTrans ℕ (rankLE scores) := ⟨rankLE_trans scores⟩
  exact List.sorted_insertionSort (rankLE scores) (List.range scores.length)

theorem argsortDesc_perm (scores : List K) :
    List.Perm (argsortDesc scores) (List.range scores.length) :=
  List.perm_insertionSort (rankLE scores) (List.range scores.length)

theorem argsortDesc_nodup (scores : List K) : (argsortDesc scores).Nodup :=
  ((argsortDesc_perm scores).nodup_iff).mpr (List.nodup_range _)

theorem argsortDesc_length (scores : List K) :
    (argsortDesc scores).length = scores.length := by
  rw [(argsortDesc_perm scores).length_eq, List.length_range]

theorem pySliceTake_sublist {α : Type} (k : Int) (l : List α) :
    List.Sublist (pySliceTake k l) l := by
  unfold pySliceTake
  split
  · exact List.take_sublist _ _
  · exact List.take_sublist _ _

theorem pySliceTake_nonneg {α : Type} (k : Int) (hk : 0 ≤ k) (l : List α) :
    pySliceTake k l = l.take k.toNat := by
  unfold pySliceTake
  rw [if_neg (not_lt.mpr hk)]

/-- The sliced stable refinement `argsortDesc` is strictly ordered:
descending score, ties broken by ascending index.  This is a property of
the refinement only — the library contract `ArgsortSpec` guarantees just
the descending-score part. -/
theorem pairwise_rank_pySlice (scores : List K) (topK : Int) :
    (pySliceTake topK (argsortDesc scores)).Pairwise (fun i j =>
      scores.getD j 0 < scores.getD i 0 ∨
        (scores.getD i 0 = scores.getD j 0 ∧ i < j)) := by
  have hcomb := (argsortDesc_sorted scores).and (argsortDesc_nodup scores)
  have hsub := hcomb.sublist (pySliceTake_sublist topK (argsortDesc scores))
  refine hsub.imp ?_
  rintro i j ⟨hle, hne⟩
  rcases hle with h | ⟨he, hl⟩
  · exact Or.inl h
  · exact Or.inr ⟨he, lt_of_le_of_ne hl hne⟩

theorem getD_replicate_self {α : Type} (x : α) (n i : ℕ) :
    (List.replicate n x).getD i x = x := by
  rcases lt_or_ge i n with h | h
  · rw [List.getD_eq_getElem _ _ (by simpa using h)]
    simp
  · exact List.getD_eq_default _ _ (by simpa using h)

theorem argsortDesc_replicate_zero (n : ℕ) :
    argsortDesc (List.replicate n (0 : K)) = List.range n := by
  have hsorted : (List.range n).Pairwise (rankLE (List.replicate n (0 : K))) := by
    refine (List.pairwise_lt_range n).imp ?_
    intro i j h
    exact Or.inr ⟨by rw [getD_replicate_self, getD_replicate_self], le_of_lt h⟩
  have := List.Sorted.insertionSort_eq hsorted
  unfold argsortDesc
  rw [List.length_replicate]
  exact this

/-- With a query sharing no token with any document, every BM25 score is
exactly zero. -/
theorem score_disjoint (log : K → K) (texts : List String) (query : String)
    (hdisj : ∀ t ∈ _tokenize query, ∀ d ∈ texts, t ∉ _tokenize d) :
    (_BM25.fromDocs log texts).score query = List.replicate texts.length 0 := by
  unfold _BM25.score
  rw [fromDocs_docs, List.map_map]
  rw [show texts.length = (texts.map ((fun doc =>
      scoreTF (_BM25.fromDocs log texts).idf (_BM25.fromDocs log texts).k1
        (_BM25.fromDocs log texts).b (_BM25.fromDocs log texts).avgdl
        (_tokenize query) (fun t => List.count t doc) doc.length) ∘ _tokenize)).length
    from by rw [List.length_map]]
  apply List.eq_replicate_of_mem
  intro x hx
  obtain ⟨d, hd, rfl⟩ := List.mem_map.mp hx
  simp only [Function.comp]
  rw [scoreTF_eq_sum]
  apply List.sum_eq_zero
  intro y hy
  obtain ⟨t, ht, rfl⟩ := List.mem_map.mp hy
  rw [if_pos (List.count_eq_zero.mpr (hdisj t ht d hd))]

/-- With a query sharing no token with any document, `search` returns the
documents in corpus order (sliced by `top_k`), each with score zero. -/
theorem searchBM25_disjoint (texts : List String) (query : String) (topK : Int)
    (hne : texts ≠ [])
    (hdisj : ∀ t ∈ _tokenize query, ∀ d ∈ texts, t ∉ _tokenize d) :
    searchBM25 Real.log texts query topK =
      (pySliceTake topK (List.range texts.length)).map (fun i =>
        { idx := i, score := 0
          excerpt := _best_excerpt (texts.getD i "") query 320 }) := by
  unfold searchBM25
  rw [if_neg hne, score_disjoint Real.log texts query hdisj, argsortDesc_replicate_zero]
  apply List.map_congr_left
  intro i _
  rw [getD_replicate_self]

end Ranking

theorem pairwise_of_forall_rel {α : Type} {R : α → α → Prop} (h : ∀ a b, R a b) :
    ∀ l : List α, l.Pairwise R
  | [] => List.Pairwise.nil
  | a :: l => List.Pairwise.cons (fun b _ => h a b) (pairwise_of_forall_rel h l)

/-- The stable refinement is one admissible outcome of the `np.argsort`
contract. -/
theorem argsortDesc_admissible {K : Type} [LinearOrderedField K] (scores : List K) :
    ArgsortSpec scores (argsortDesc scores) := by
  refine ⟨argsortDesc_perm scores, ?_⟩
  refine (argsortDesc_sorted scores).imp ?_
  intro i j h
  rcases h with h | ⟨he, -⟩
  · exact le_of_lt h
  · exact le_of_eq he.symm

/-- C1 (counterexample).  `np.argsort` is called with its default sort
kind, which is not stable and documents no tie order (for tied arrays
beyond its small-sort threshold it does permute equal elements), so the
program only guarantees the `ArgsortSpec` contract.  On a 17-document
corpus with a no-match query every score is 0 — all tied — and the result
list whose first two indices are swapped (1 before 0) satisfies the
contract while violating both the claimed "equal scores appear in
ascending original insertion index" and the scenario's "ordered by
original insertion order". -/
theorem c1_counterexample :
    searchBM25Spec Real.log (List.replicate 17 "cat") "zz" 17
      (((1 : ℕ) :: 0 :: List.range' 2 15).map (fun i =>
        ({ idx := i, score := 0
           excerpt := _best_excerpt ((List.replicate 17 "cat").getD i "") "zz" 320 } :
          SearchResult ℝ))) ∧
    ¬ (((1 : ℕ) :: 0 :: List.range' 2 15).map (fun i =>
        ({ idx := i, score := 0
           excerpt := _best_excerpt ((List.replicate 17 "cat").getD i "") "zz" 320 } :
          SearchResult ℝ))).Pairwise
        (fun a b => b.score < a.score ∨ (a.score = b.score ∧ a.idx < b.idx)) := by
  have hsc : (_BM25.fromDocs Real.log (List.replicate 17 "cat")).score "zz" =
      List.replicate 17 0 := by
    have h := score_disjoint Real.log (List.replicate 17 "cat") "zz" (by decide)
    simpa using h
  constructor
  · unfold searchBM25Spec
    rw [if_neg (by decide)]
    refine ⟨(1 : ℕ) :: 0 :: List.range' 2 15, ⟨?_, ?_⟩, ?_⟩
    · have hlen : ((_BM25.fromDocs Real.log (List.replicate 17 "cat")).score "zz").length
          = 17 := by
        rw [score_length, fromDocs_docs]
        simp
      rw [hlen, show List.range 17 = 0 :: 1 :: List.range' 2 15 from by decide]
      exact List.Perm.swap 0 1 _
    · rw [hsc]
      exact pairwise_of_forall_rel (fun i j => by
        rw [getD_replicate_self, getD_replicate_self]) _
    · rw [show pySliceTake (17 : Int) ((1 : ℕ) :: 0 :: List.range' 2 15) =
          (1 : ℕ) :: 0 :: List.range' 2 15 from by decide, hsc]
      refine (List.map_congr_left ?_).symm
      intro i _
      rw [getD_replicate_self]
  · intro h
    rw [List.map_cons, List.map_cons] at h
    have h1 := (List.pairwise_cons.mp h).1 _ (List.mem_cons_self _ _)
    rcases h1 with h1 | ⟨-, h1⟩
    · exact lt_irrefl (0 : ℝ) h1
    · exact Nat.not_lt_zero 1 h1

/-- C1 (amended).  For every search call, every admissible result list is
ordered by descending score (first for the contract-level argsort on any
score list, covering both engines, then for the assembled BM25 results);
the relative order of equal-score documents is unspecified, the library's
default sort being unstable (the stable, ascending-index order is one
admissible outcome, realised by `searchBM25`).  For a query whose tokens
match no document of a non-empty corpus, a search with `top_k` equal to
the corpus size returns every document exactly once, each with score 0,
in an unspecified order. -/
theorem c1_search_order_amended :
    (∀ (scores : List ℝ) (idx : List ℕ) (topK : Int), ArgsortSpec scores idx →
        (pySliceTake topK idx).Pairwise (fun i j =>
          scores.getD j 0 ≤ scores.getD i 0)) ∧
    (∀ (texts : List String) (query : String) (topK : Int)
        (res : List (SearchResult ℝ)),
        searchBM25Spec Real.log texts query topK res →
        res.Pairwise (fun a b => b.score ≤ a.score)) ∧
    (∀ (texts : List String) (query : String) (res : List (SearchResult ℝ)),
        texts ≠ [] →
        (∀ t ∈ _tokenize query, ∀ d ∈ texts, t ∉ _tokenize d) →
        searchBM25Spec Real.log texts query (texts.length : Int) res →
        List.Perm (res.map (fun r => r.idx)) (List.range texts.length) ∧
        ∀ r ∈ res, r.score = 0) ∧
    (∀ (texts : List String) (query : String) (topK : Int),
        searchBM25Spec Real.log texts query topK
          (searchBM25 Real.log texts query topK)) := by
  refine ⟨?_, ?_, ?_, ?_⟩
  · intro scores idx topK hspec
    exact hspec.2.sublist (pySliceTake_sublist topK idx)
  · intro texts query topK res hspec
    unfold searchBM25Spec at hspec
    by_cases h : texts = []
    · rw [if_pos h] at hspec
      rw [hspec]
      exact List.Pairwise.nil
    · rw [if_neg h] at hspec
      obtain ⟨idx, hadm, rfl⟩ := hspec
      rw [List.pairwise_map]
      exact hadm.2.sublist (pySliceTake_sublist _ idx)
  · intro texts query res hne hdisj hspec
    unfold searchBM25Spec at hspec
    rw [if_neg hne] at hspec
    obtain ⟨idx, ⟨hperm, -⟩, rfl⟩ := hspec
    have hsc := score_disjoint Real.log texts query hdisj
    have hslen : ((_BM25.fromDocs Real.log texts).score query).length = texts.length := by
      rw [score_length, fromDocs_docs, List.length_map]
    rw [hslen] at hperm
    have hidxlen : idx.length = texts.length := by
      rw [hperm.length_eq, List.length_range]
    have hslice : pySliceTake ((texts.length : ℕ) : Int) idx = idx := by
      rw [pySliceTake_nonneg _ (by omega), Int.toNat_natCast, ← hidxlen, List.take_length]
    rw [hslice]
    constructor
    · have hmap : ∀ (f : ℕ → SearchResult ℝ), (∀ i, (f i).idx = i) →
          ∀ l : List ℕ, (l.map f).map (fun r => r.idx) = l := by
        intro f hf l
        induction l with
        | nil => rfl
        | cons a l ih => simp [hf, ih]
      rw [hmap _ (fun i => rfl)]
      exact hperm
    · intro r hr
      obtain ⟨i, -, rfl⟩ := List.mem_map.mp hr
      rw [hsc, getD_replicate_self]
  · intro texts query topK
    unfold searchBM25Spec searchBM25
    by_cases h : texts = []
    · rw [if_pos h, if_pos h]
    · rw [if_neg h, if_neg h]
      exact ⟨argsortDesc ((_BM25.fromDocs Real.log texts).score query),
        argsortDesc_admissible _, rfl⟩

/-- Witness for C1 (amended) at a concrete input. -/
theorem c1_search_order_amended_witness :
    ((["cat"] : List String) ≠ [] ∧
      (∀ t ∈ _tokenize "zz", ∀ d ∈ (["cat"] : List String), t ∉ _tokenize d) ∧
      searchBM25Spec Real.log ["cat"] "zz" (((["cat"] : List String).length : ℕ) : Int)
        (searchBM25 Real.log ["cat"] "zz" (((["cat"] : List String).length : ℕ) : Int))) ∧
    (List.Perm
      ((searchBM25 Real.log ["cat"] "zz"
          (((["cat"] : List String).length : ℕ) : Int)).map (fun r => r.idx))
      (List.range (["cat"] : List String).length) ∧
    ∀ r ∈ searchBM25 Real.log ["cat"] "zz" (((["cat"] : List String).length : ℕ) : Int),
      r.score = 0) :=
  ⟨⟨by decide, by decide, c1_search_order_amended.2.2.2 ["cat"] "zz" _⟩,
    c1_search_order_amended.2.2.1 ["cat"] "zz" _ (by decide) (by decide)
      (c1_search_order_amended.2.2.2 ["cat"] "zz" _)⟩

/-- C2 (counterexample).  `top_k = -1` does not yield an empty result list:
Python slicing `[:-1]` keeps all ranked entries but the last, so a search
over a 2-document corpus returns 1 result. -/
theorem c2_counterexample :
    (searchBM25 Real.log ["aa bb", "cc dd"] "zz" (-1)).length = 1 := by
  rw [searchBM25_disjoint ["aa bb", "cc dd"] "zz" (-1) (by decide) (by decide)]
  rw [List.length_map]
  rfl

/-- C2 (amended).  `search` with `top_k = 0` returns an empty result list;
a negative `top_k` is interpreted by Python slicing and returns all but the
last `|top_k|` ranked results, so the result count is
`max 0 (corpus size + top_k)` — empty only when `top_k ≤ -corpus size`. -/
theorem c2_topk_amended :
    (∀ (texts : List String) (query : String),
        searchBM25 Real.log texts query 0 = []) ∧
    (∀ (texts : List String) (query : String) (k : Int), k < 0 →
        ((searchBM25 Real.log texts query k).length : Int) =
          max 0 ((texts.length : Int) + k)) := by
  constructor
  · intro texts query
    unfold searchBM25
    split
    · rfl
    · rw [pySliceTake_nonneg 0 le_rfl, Int.toNat_zero, List.take_zero, List.map_nil]
  · intro texts query k hk
    unfold searchBM25
    split
    · rename_i h
      subst h
      simp
      omega
    · rw [List.length_map]
      unfold pySliceTake
      rw [if_pos hk, List.length_take, argsortDesc_length, score_length, fromDocs_docs,
        List.length_map]
      have : k = -(k.natAbs : Int) := by omega
      omega

/-- Witness for C2 (amended) at a concrete input. -/
theorem c2_topk_amended_witness :
    ((-2 : Int) < 0 ∧
      ((searchBM25 Real.log ["aa", "bb", "cc"] "aa" (-2)).length : Int) =
        max 0 (((["aa", "bb", "cc"] : List String).length : Int) + (-2))) ∧
    searchBM25 Real.log ["aa", "bb"] "aa" 0 = [] :=
  ⟨⟨by decide, c2_topk_amended.2 ["aa", "bb", "cc"] "aa" (-2) (by decide)⟩,
    c2_topk_amended.1 ["aa", "bb"] "aa"⟩

/-! ## Excerpt selection -/

theorem sentences_ne_empty (t : String) : ∀ s ∈ _sentences t, s ≠ "" := by
  intro s hs
  unfold _sentences at hs
  obtain ⟨r, hr, rfl⟩ := List.mem_map.mp hs
  have hrne : r ≠ [] := by simpa using List.of_mem_filter hr
  intro h
  apply hrne
  have hdata : (String.mk r).data = ("" : String).data := by rw [h]
  simpa using hdata

/-- The selection loop of `_best_excerpt`, started on a sentence and its
overlap, agrees with Mathlib's first-maximum fold. -/
theorem bestStep_fold_argmax (q : List String) :
    ∀ (l : List String) (c : String),
      ∃ m, l.foldl (bestStep q) (c, (overlapCount q c : Int)) =
          (m, (overlapCount q m : Int)) ∧
        l.foldl (List.argAux fun b s => overlapCount q s < overlapCount q b)
          (some c) = some m := by
  intro l
  induction l with
  | nil => intro c; exact ⟨c, rfl, rfl⟩
  | cons s l ih =>
    intro c
    by_cases h : overlapCount q c < overlapCount q s
    · obtain ⟨m, h1, h2⟩ := ih s
      refine ⟨m, ?_, ?_⟩
      · rw [List.foldl_cons,
          show bestStep q (c, (overlapCount q c : Int)) s = (s, (overlapCount q s : Int)) from by
            unfold bestStep; dsimp only; rw [if_pos (by exact_mod_cast h)], h1]
      · rw [List.foldl_cons,
          show List.argAux (fun b s' => overlapCount q s' < overlapCount q b) (some c) s
              = some s from by
            unfold List.argAux; simp only [Option.casesOn]; rw [if_pos h], h2]
    · obtain ⟨m, h1, h2⟩ := ih c
      refine ⟨m, ?_, ?_⟩
      · rw [List.foldl_cons,
          show bestStep q (c, (overlapCount q c : Int)) s = (c, (overlapCount q c : Int)) from by
            unfold bestStep; dsimp only; rw [if_neg (by exact_mod_cast h)], h1]
      · rw [List.foldl_cons,
          show List.argAux (fun b s' => overlapCount q s' < overlapCount q b) (some c) s
              = some c from by
            unfold List.argAux; simp only [Option.casesOn]; rw [if_neg h], h2]

/-- On a non-empty sentence list, the loop of `_best_excerpt` returns the
first sentence of maximal overlap, i.e. Mathlib's `argmax`. -/
theorem bestLoop_argmax (q : List String) (sents : List String) (hne : sents ≠ []) :
    ∃ m, (sents.foldl (bestStep q) ("", -1)).1 = m ∧
      sents.argmax (fun s => overlapCount q s) = some m := by
  rcases sents with _ | ⟨s, rest⟩
  · exact absurd rfl hne
  · obtain ⟨m, h1, h2⟩ := bestStep_fold_argmax q rest s
    refine ⟨m, ?_, ?_⟩
    · rw [List.foldl_cons,
        show bestStep q ("", -1) s = (s, (overlapCount q s : Int)) from by
          unfold bestStep; dsimp only; rw [if_pos (by omega)], h1]
    · unfold List.argmax
      rw [List.foldl_cons,
        show List.argAux (fun b s' => overlapCount q s' < overlapCount q b) none s
            = some s from rfl, h2]

theorem truncateEll_length (mc : Int) (hmc : 1 ≤ mc) (s : String) :
    ((truncateEll mc s).length : Int) ≤ mc := by
  unfold truncateEll
  split
  · rename_i hlt
    rw [String.length_append]
    have hmk : (String.mk (pySliceTake (mc - 1) s.toList)).length =
        (pySliceTake (mc - 1) s.toList).length := rfl
    have hd : ("…" : String).length = 1 := rfl
    rw [hmk, hd]
    rw [pySliceTake_nonneg (mc - 1) (by omega), List.length_take]
    have hmin : min (mc - 1).toNat s.toList.length ≤ (mc - 1).toNat := Nat.min_le_left _ _
    have htl : s.toList.length = s.length := rfl
    omega
  · rename_i hge
    omega

/-- C3 (counterexample).  With a query matching no sentence, the excerpt is
the first sentence, not the full trimmed text: every sentence of
`"Aa cat. Bb dog."` has zero overlap with `"zz"`, the full trimmed
(collapsed) text is `"Aa cat. Bb dog."`, but `_best_excerpt` returns
`"Aa cat."`. -/
theorem c3_counterexample :
    _best_excerpt "Aa cat. Bb dog." "zz" 320 = "Aa cat." ∧
    String.mk (collapseWS (pyStrip (String.toList "Aa cat. Bb dog."))) =
      "Aa cat. Bb dog." ∧
    (∀ s ∈ _sentences "Aa cat. Bb dog.", overlapCount (_tokenize "zz") s = 0) ∧
    ("Aa cat." : String) ≠ "Aa cat. Bb dog." := by
  refine ⟨by decide, by decide, by decide, by decide⟩

/-- C3 (amended).  `_best_excerpt` returns the sentence with maximum
query-token overlap, the first such sentence in document order on ties
(`List.argmax`), even when that maximal overlap is zero; only when the
text has no sentences is the excerpt the full trimmed text.  Whitespace
runs are collapsed to single spaces, a result exceeding `max_chars` is cut
to `max_chars - 1` characters plus one ellipsis character, and for
`max_chars ≥ 1` the result never exceeds `max_chars` characters. -/
theorem c3_excerpt_amended (text query : String) (maxChars : Int) :
    _best_excerpt text query maxChars = excerptSpec text query maxChars ∧
    (1 ≤ maxChars → ((_best_excerpt text query maxChars).length : Int) ≤ maxChars) := by
  constructor
  · unfold _best_excerpt excerptSpec
    by_cases hs : _sentences text = []
    · rw [hs]
      simp [List.argmax]
    · obtain ⟨m, h1, h2⟩ := bestLoop_argmax (_tokenize query) (_sentences text) hs
      have hmem : m ∈ _sentences text := by
        apply List.argmax_mem (f := fun s => overlapCount (_tokenize query) s)
        rw [h2]; rfl
      rw [h1, h2, if_neg (sentences_ne_empty text m hmem)]
  · intro hmc
    unfold _best_excerpt
    exact truncateEll_length maxChars hmc _

/-- Witness for C3 (amended) at a concrete input. -/
theorem c3_excerpt_amended_witness :
    (1 : Int) ≤ 320 ∧
    ((_best_excerpt "Aa cat. Bb dog." "cat" 320).length : Int) ≤ 320 :=
  ⟨by decide, (c3_excerpt_amended "Aa cat. Bb dog." "cat" 320).2 (by decide)⟩

/-! ## Semantic compression -/

/-- The sentence list `semantic_compress` keeps, written without the
intermediate bindings (definitionally equal to the field of the result). -/
def compressSentences (text query : String) (k : Int) : List String :=
  if (((pySliceTake k (((_sentences text).map
        (fun s => (overlapCount (_tokenize query) s, s))).insertionSort ssLe)).filter
        (fun p => 0 < p.1)).map (fun p => p.2)) = []
  then pySliceTake k (_sentences text)
  else (((pySliceTake k (((_sentences text).map
        (fun s => (overlapCount (_tokenize query) s, s))).insertionSort ssLe)).filter
        (fun p => 0 < p.1)).map (fun p => p.2))

theorem semantic_compress_eq (text query : String) (k : Int) :
    semantic_compress text query k =
      { compressed := joinSpace (compressSentences text query k)
        sentences := compressSentences text query k } := rfl

theorem ssLe_total (x y : ℕ × String) : ssLe x y ∨ ssLe y x := by
  unfold ssLe
  rcases lt_trichotomy x.1 y.1 with h | h | h
  · right; exact Or.inl h
  · rcases Nat.le_total x.2.length y.2.length with hl | hl
    · right; exact Or.inr ⟨h.symm, hl⟩
    · left; exact Or.inr ⟨h, hl⟩
  · left; exact Or.inl h

theorem ssLe_trans (x y z : ℕ × String) (h1 : ssLe x y) (h2 : ssLe y z) : ssLe x z := by
  unfold ssLe at h1 h2 ⊢
  rcases h1 with h1 | ⟨h1e, h1l⟩ <;> rcases h2 with h2 | ⟨h2e, h2l⟩
  · exact Or.inl (h2.trans h1)
  · exact Or.inl (h2e ▸ h1)
  · exact Or.inl (h1e ▸ h2)
  · exact Or.inr ⟨h1e.trans h2e, h2l.trans h1l⟩

/-- Pairs reaching the sort carry the overlap of their own sentence. -/
theorem scored_mem_overlap (text query : String) {p : ℕ × String}
    (hp : p ∈ ((_sentences text).map
        (fun s => (overlapCount (_tokenize query) s, s))).insertionSort ssLe) :
    p.1 = overlapCount (_tokenize query) p.2 ∧ p.2 ∈ _sentences text := by
  have hp' := (List.mem_insertionSort ssLe).mp hp
  obtain ⟨s, hs, rfl⟩ := List.mem_map.mp hp'
  exact ⟨rfl, hs⟩

theorem pySliceTake_length_le {α : Type} (k : Int) (hk : 0 ≤ k) (l : List α) :
    (pySliceTake k l).length ≤ k.toNat := by
  rw [pySliceTake_nonneg k hk, List.length_take]
  exact Nat.min_le_left _ _

/-- C9 (amended, restricted to `max_sentences = k ≥ 0` — a negative `k` is
interpreted by Python slicing, see the counterexample).
`semantic_compress` returns at most `k` sentences, each drawn verbatim from
the sentence split of the text; the scored sentences are sorted by
descending overlap then descending character length (the sorted list is
ordered under the two-key comparator, and insertion sort preserves the
original order of ties); either every kept sentence has positive overlap,
or the result is the `k`-prefix fallback; when no sentence has positive
overlap the result is exactly the first `k` sentences in document order;
and the compressed string joins the kept sentences with single spaces. -/
theorem c9_compress_amended (text query : String) (k : Int) (hk : 0 ≤ k) :
    (semantic_compress text query k).sentences.length ≤ k.toNat ∧
    (∀ s ∈ (semantic_compress text query k).sentences, s ∈ _sentences text) ∧
    (((_sentences text).map
        (fun s => (overlapCount (_tokenize query) s, s))).insertionSort ssLe).Pairwise ssLe ∧
    ((∀ s ∈ (semantic_compress text query k).sentences,
        0 < overlapCount (_tokenize query) s) ∨
      (semantic_compress text query k).sentences = (_sentences text).take k.toNat) ∧
    ((∀ s ∈ _sentences text, overlapCount (_tokenize query) s = 0) →
      (semantic_compress text query k).sentences = (_sentences text).take k.toNat) ∧
    (semantic_compress text query k).compressed =
      joinSpace (semantic_compress text query k).sentences := by
  rw [semantic_compress_eq]
  have hsorted : (((_sentences text).map
      (fun s => (overlapCount (_tokenize query) s, s))).insertionSort ssLe).Pairwise ssLe := by
    haveI : IsTotal (ℕ × String) ssLe := ⟨ssLe_total⟩
    haveI : IsTrans (ℕ × String) ssLe := ⟨ssLe_trans⟩
    exact List.sorted_insertionSort ssLe _
  refine ⟨?_, ?_, hsorted, ?_, ?_, rfl⟩
  · unfold compressSentences
    split
    · exact pySliceTake_length_le k hk _
    · rw [List.length_map]
      calc (((pySliceTake k (((_sentences text).map
              (fun s => (overlapCount (_tokenize query) s, s))).insertionSort ssLe)).filter
              (fun p => 0 < p.1))).length
          ≤ (pySliceTake k (((_sentences text).map
              (fun s => (overlapCount (_tokenize query) s, s))).insertionSort ssLe)).length :=
            List.length_filter_le _ _
        _ ≤ k.toNat := pySliceTake_length_le k hk _
  · intro s hs
    unfold compressSentences at hs
    split at hs
    · have hsub := (pySliceTake_sublist k (_sentences text)).subset
      exact hsub hs
    · obtain ⟨p, hp, rfl⟩ := List.mem_map.mp hs
      have hp2 := List.mem_filter.mp hp
      have hp3 := (pySliceTake_sublist k _).subset hp2.1
      exact (scored_mem_overlap text query hp3).2
  · unfold compressSentences
    split
    · right
      exact pySliceTake_nonneg k hk _
    · left
      intro s hs
      obtain ⟨p, hp, rfl⟩ := List.mem_map.mp hs
      have hp2 := List.mem_filter.mp hp
      have hp3 := (pySliceTake_sublist k _).subset hp2.1
      have hpos : 0 < p.1 := by
        have := hp2.2
        simpa using this
      rw [← (scored_mem_overlap text query hp3).1]
      exact hpos
  · intro hzero
    unfold compressSentences
    have hfil : (((pySliceTake k (((_sentences text).map
        (fun s => (overlapCount (_tokenize query) s, s))).insertionSort ssLe)).filter
        (fun p => 0 < p.1))) = [] := by
      rw [List.filter_eq_nil_iff]
      intro p hp
      have hp3 := (pySliceTake_sublist k _).subset hp
      obtain ⟨hov, hmem⟩ := scored_mem_overlap text query hp3
      simp [hov, hzero p.2 hmem]
    rw [hfil]
    simp only [List.map_nil, if_pos rfl]
    exact pySliceTake_nonneg k hk _

/-- Witness for C9 (amended) at a concrete input (the spec's scenario:
compressing `"A. B. C cat."` for query `"cat"` keeps `["C cat."]`). -/
theorem c9_compress_amended_witness :
    (0 : Int) ≤ 1 ∧
    ((semantic_compress "A. B. C cat." "cat" 1).sentences.length ≤ (1 : Int).toNat ∧
      (∀ s ∈ (semantic_compress "A. B. C cat." "cat" 1).sentences,
        s ∈ _sentences "A. B. C cat.") ∧
      (((_sentences "A. B. C cat.").map
          (fun s => (overlapCount (_tokenize "cat") s, s))).insertionSort ssLe).Pairwise ssLe ∧
      ((∀ s ∈ (semantic_compress "A. B. C cat." "cat" 1).sentences,
          0 < overlapCount (_tokenize "cat") s) ∨
        (semantic_compress "A. B. C cat." "cat" 1).sentences =
          (_sentences "A. B. C cat.").take (1 : Int).toNat) ∧
      ((∀ s ∈ _sentences "A. B. C cat.", overlapCount (_tokenize "cat") s = 0) →
        (semantic_compress "A. B. C cat." "cat" 1).sentences =
          (_sentences "A. B. C cat.").take (1 : Int).toNat) ∧
      (semantic_compress "A. B. C cat." "cat" 1).compressed =
        joinSpace (semantic_compress "A. B. C cat." "cat" 1).sentences) :=
  ⟨by decide, c9_compress_amended "A. B. C cat." "cat" 1 (by decide)⟩

/-- C9 (counterexample).  With `max_sentences = -1`, Python slicing keeps
all but the last sorted entry, so three all-matching sentences yield two
kept sentences — more than the claimed bound of `k = -1` sentences (any
non-empty result already exceeds a negative bound). -/
theorem c9_counterexample :
    (semantic_compress "Cat a. Cat b. Cat c." "cat" (-1)).sentences =
      ["Cat a.", "Cat b."] ∧
    ¬ (((semantic_compress "Cat a. Cat b. Cat c." "cat" (-1)).sentences.length : Int)
        ≤ -1) := by
  refine ⟨by decide, by decide⟩

/-! ## Backend selection invariant -/

/-- C5 (counterexample).  On an empty corpus with the dense capability
unavailable, `_rebuild_indexes` lands in the `except` branch and builds a
BM25 index over zero documents: after `add_documents([])` on a fresh
engine the corpus is empty yet the BM25 state is set, contradicting "the
backend is left unset". -/
theorem c5_counterexample :
    (addDocuments Real.log false false [] (initState ℝ)).docs = [] ∧
    (addDocuments Real.log false false [] (initState ℝ)).bm25.isSome = true :=
  ⟨rfl, rfl⟩

/-- C5 (amended).  In every reachable state: the two dense slots agree
(never partial state); the dense and BM25 backends are never both set;
with a non-empty corpus exactly one backend is set; with an empty corpus
the dense slots are unset while the BM25 slot is either unset (dense path,
including the initial state) or holds an index over zero documents
(fallback path), and `search` returns an empty result list without
error. -/
theorem c5_backend_amended (st : RAGState ℝ) (h : Reachable Real.log st) :
    (st.tfidfVec = st.tfidfMat) ∧
    (st.tfidfVec = true → st.bm25 = none) ∧
    (st.docs ≠ [] → st.tfidfVec = true ∨ st.bm25.isSome = true) ∧
    (st.docs = [] → st.tfidfVec = false ∧
      (st.bm25 = none ∨ st.bm25 = some (_BM25.fromDocs Real.log [])) ∧
      (∀ (ds : String → List ℝ) (q : String) (topK : Int),
        stateSearch ds st q topK = some [])) := by
  induction h with
  | init =>
    refine ⟨rfl, fun _ => rfl, by intro h; exact absurd rfl h, ?_⟩
    intro _
    exact ⟨rfl, Or.inl rfl, fun ds q topK => rfl⟩
  | step importOk fitOk entries hst ih =>
    rename_i st0
    cases importOk with
    | false =>
      have hr : addDocuments Real.log false fitOk entries st0 =
          { docs := st0.docs ++ entries.filterMap id, tfidfVec := false, tfidfMat := false
            bm25 := some (_BM25.fromDocs Real.log (st0.docs ++ entries.filterMap id)) } := rfl
      rw [hr]
      refine ⟨rfl, fun h => absurd h Bool.false_ne_true, fun _ => Or.inr rfl, ?_⟩
      intro hempty
      refine ⟨rfl, Or.inr (by rw [show st0.docs ++ entries.filterMap id = [] from hempty]),
        fun ds q topK => ?_⟩
      unfold stateSearch
      rw [if_pos hempty]
    | true =>
      by_cases hdocs : st0.docs ++ entries.filterMap id = []
      · have hr : addDocuments Real.log true fitOk entries st0 =
            { docs := st0.docs ++ entries.filterMap id, tfidfVec := false, tfidfMat := false
              bm25 := st0.bm25 } := by
          unfold addDocuments rebuild
          dsimp only
          rw [if_pos hdocs]
          exact rfl
        rw [hr]
        have hst0dn : st0.docs = [] := (List.append_eq_nil.mp hdocs).1
        have hbm := (ih.2.2.2 hst0dn).2.1
        refine ⟨rfl, fun h => absurd h Bool.false_ne_true,
          fun h => absurd hdocs h, ?_⟩
        intro hempty
        refine ⟨rfl, hbm, fun ds q topK => ?_⟩
        unfold stateSearch
        rw [if_pos hempty]
      · cases fitOk with
        | true =>
          have hr : addDocuments Real.log true true entries st0 =
              { docs := st0.docs ++ entries.filterMap id, tfidfVec := true, tfidfMat := true
                bm25 := none } := by
            unfold addDocuments rebuild
            dsimp only
            rw [if_neg hdocs]
            exact rfl
          rw [hr]
          exact ⟨rfl, fun _ => rfl, fun _ => Or.inl rfl, fun h => absurd h hdocs⟩
        | false =>
          have hr : addDocuments Real.log true false entries st0 =
              { docs := st0.docs ++ entries.filterMap id, tfidfVec := false, tfidfMat := false
                bm25 := some (_BM25.fromDocs Real.log (st0.docs ++ entries.filterMap id)) } := by
            unfold addDocuments rebuild
            dsimp only
            rw [if_neg hdocs]
            exact rfl
          rw [hr]
          exact ⟨rfl, fun h => absurd h Bool.false_ne_true, fun _ => Or.inr rfl,
            fun h => absurd h hdocs⟩

/-- Witness for C5 (amended) at a concrete reachable state. -/
theorem c5_backend_amended_witness :
    Reachable Real.log (initState ℝ) ∧
    ((initState ℝ).tfidfVec = (initState ℝ).tfidfMat ∧
      ((initState ℝ).tfidfVec = true → (initState ℝ).bm25 = none) ∧
      ((initState ℝ).docs ≠ [] →
        (initState ℝ).tfidfVec = true ∨ (initState ℝ).bm25.isSome = true) ∧
      ((initState ℝ).docs = [] → (initState ℝ).tfidfVec = false ∧
        ((initState ℝ).bm25 = none ∨
          (initState ℝ).bm25 = some (_BM25.fromDocs Real.log [])) ∧
        (∀ (ds : String → List ℝ) (q : String) (topK : Int),
          stateSearch ds (initState ℝ) q topK = some []))) :=
  ⟨Reachable.init, c5_backend_amended (initState ℝ) Reachable.init⟩

/-! ## Exact-match ranking (C6) -/

theorem argsortDesc_pair_lt {K : Type} [LinearOrderedField K] (a b : K) (h : a < b) :
    argsortDesc [a, b] = [1, 0] := by
  have hr : ¬ rankLE [a, b] 0 1 := by
    unfold rankLE
    rintro (h1 | ⟨h2, -⟩)
    · exact absurd (show b < a from h1) (not_lt.mpr h.le)
    · exact absurd (show a = b from h2) (ne_of_lt h)
  unfold argsortDesc
  show List.insertionSort _ [0, 1] = [1, 0]
  simp only [List.insertionSort, List.orderedInsert]
  rw [if_neg hr]

theorem list_len2_eq {α : Type} (l : List α) (d : α) (h : l.length = 2) :
    l = [l.getD 0 d, l.getD 1 d] := by
  rcases l with _ | ⟨a, _ | ⟨b, _ | ⟨c, t⟩⟩⟩ <;> simp_all

theorem fromDocs_docs_getD (texts : List String) (i : ℕ) (hi : i < texts.length) :
    ((_BM25.fromDocs (K := ℝ) Real.log texts).docs.getD i []) =
      _tokenize (texts.getD i "") := by
  rw [fromDocs_docs, List.getD_eq_getElem _ _ (by simpa using hi), List.getElem_map,
    List.getD_eq_getElem _ _ hi]

theorem idf_fromDocs_pos (texts : List String) (t : String)
    (hdf : 0 < docFreq (texts.map _tokenize) t) :
    0 < (_BM25.fromDocs Real.log texts).idf t := by
  rw [fromDocs_idf]
  dsimp only
  rw [if_neg (by omega)]
  apply Real.log_pos
  have hle : docFreq (texts.map _tokenize) t ≤ max (texts.map _tokenize).length 1 := by
    have h1 : docFreq (texts.map _tokenize) t ≤ (texts.map _tokenize).length :=
      List.countP_le_length _
    omega
  have hnum : (0 : ℝ) < ((max (texts.map _tokenize).length 1 : ℕ) : ℝ) -
      ((docFreq (texts.map _tokenize) t : ℕ) : ℝ) + 1 / 2 := by
    have hc : ((docFreq (texts.map _tokenize) t : ℕ) : ℝ) ≤
        ((max (texts.map _tokenize).length 1 : ℕ) : ℝ) := by exact_mod_cast hle
    linarith
  have hden : (0 : ℝ) < ((docFreq (texts.map _tokenize) t : ℕ) : ℝ) + 1 / 2 := by
    positivity
  nlinarith [div_pos hnum hden]

/-- C6 (counterexample).  The corpus `["cat", "cat cat"]` contains the
document `"cat"` (index 0) whose text is exactly the query, yet
`search("cat")` ranks the repeated-term document `"cat cat"` (index 1)
first: BM25's term-frequency saturation gives it the higher score. -/
theorem c6_counterexample :
    (["cat", "cat cat"] : List String).getD 0 "" = "cat" ∧
    (searchBM25 Real.log ["cat", "cat cat"] "cat" 5).map (fun r => r.idx) = [1, 0] := by
  refine ⟨rfl, ?_⟩
  have hidf : (_BM25.fromDocs (K := ℝ) Real.log ["cat", "cat cat"]).idf "cat" =
      Real.log (1 + ((2 : ℝ) - 2 + 1 / 2) / ((2 : ℝ) + 1 / 2)) := by
    rw [fromDocs_idf]
    dsimp only
    rw [show docFreq ((["cat", "cat cat"] : List String).map _tokenize) "cat" = 2 from rfl]
    rw [if_neg (by omega)]
    norm_num [show (max ((["cat", "cat cat"] : List String).map _tokenize).length 1 : ℕ) = 2
      from rfl]
  have hidfpos : 0 < (_BM25.fromDocs (K := ℝ) Real.log ["cat", "cat cat"]).idf "cat" := by
    rw [hidf]
    apply Real.log_pos
    norm_num
  have havg : (_BM25.fromDocs (K := ℝ) Real.log ["cat", "cat cat"]).avgdl = 3 / 2 := by
    rw [fromDocs_avgdl]
    norm_num [show ((["cat", "cat cat"] : List String).map _tokenize) =
      [["cat"], ["cat", "cat"]] from rfl]
  have hs0 : ((_BM25.fromDocs Real.log ["cat", "cat cat"]).score "cat").getD 0 0 =
      (_BM25.fromDocs (K := ℝ) Real.log ["cat", "cat cat"]).idf "cat" *
        ((1 : ℝ) * (3 / 2 + 1)) /
        (((1 : ℝ) + (3 / 2) * (1 - 3 / 4 + (3 / 4) * ((1 : ℝ) / (3 / 2)))) +
          1 / 1000000000) := by
    rw [score_getD _ _ 0 (by rw [fromDocs_docs]; norm_num)]
    rw [show ((_BM25.fromDocs (K := ℝ) Real.log ["cat", "cat cat"]).docs.getD 0 []) = ["cat"]
      from rfl]
    rw [fromDocs_k1, fromDocs_b, havg]
    rw [show _tokenize "cat" = ["cat"] from rfl]
    rw [scoreTF_singleton]
    rw [show List.count "cat" ["cat"] = 1 from rfl]
    rw [if_neg (by omega)]
    rw [show (max (["cat"] : List String).length 1 : ℕ) = 1 from rfl]
    rw [if_neg (by norm_num : (3 / 2 : ℝ) ≠ 0)]
    norm_num
  have hs1 : ((_BM25.fromDocs Real.log ["cat", "cat cat"]).score "cat").getD 1 0 =
      (_BM25.fromDocs (K := ℝ) Real.log ["cat", "cat cat"]).idf "cat" *
        ((2 : ℝ) * (3 / 2 + 1)) /
        (((2 : ℝ) + (3 / 2) * (1 - 3 / 4 + (3 / 4) * ((2 : ℝ) / (3 / 2)))) +
          1 / 1000000000) := by
    rw [score_getD _ _ 1 (by rw [fromDocs_docs]; norm_num)]
    rw [show ((_BM25.fromDocs (K := ℝ) Real.log ["cat", "cat cat"]).docs.getD 1 []) =
      ["cat", "cat"] from rfl]
    rw [fromDocs_k1, fromDocs_b, havg]
    rw [show _tokenize "cat" = ["cat"] from rfl]
    rw [scoreTF_singleton]
    rw [show List.count "cat" ["cat", "cat"] = 2 from rfl]
    rw [if_neg (by omega)]
    rw [show (max (["cat", "cat"] : List String).length 1 : ℕ) = 2 from rfl]
    rw [if_neg (by norm_num : (3 / 2 : ℝ) ≠ 0)]
    norm_num
  have hlt : ((_BM25.fromDocs Real.log ["cat", "cat cat"]).score "cat").getD 0 0 <
      ((_BM25.fromDocs Real.log ["cat", "cat cat"]).score "cat").getD 1 0 := by
    rw [hs0, hs1]
    rw [div_lt_div_iff₀ (by norm_num) (by norm_num)]
    nlinarith [hidfpos]
  have hlen : ((_BM25.fromDocs Real.log ["cat", "cat cat"]).score "cat").length = 2 := by
    rw [score_length, fromDocs_docs]
    rfl
  have hpair := list_len2_eq _ (0 : ℝ) hlen
  unfold searchBM25
  rw [if_neg (by simp : ¬ (["cat", "cat cat"] : List String) = [])]
  rw [hpair, argsortDesc_pair_lt _ _ hlt]
  rw [pySliceTake_nonneg 5 (by norm_num)]
  simp

/-- C6 (amended).  A document whose text is exactly the query string, for a
query with at least one token, receives a strictly positive BM25 score,
while every document sharing no token with the query scores exactly 0 —
so under the descending-score ordering the exact-match document precedes
every token-disjoint document, but it need not be ranked first overall
(see the counterexample). -/
theorem c6_exact_match_amended (texts : List String) (query : String) (i : ℕ)
    (hi : i < texts.length) (heq : texts.getD i "" = query)
    (hne : _tokenize query ≠ []) :
    0 < ((_BM25.fromDocs Real.log texts).score query).getD i 0 ∧
    (∀ j : ℕ, j < texts.length →
      (∀ t ∈ _tokenize query, t ∉ _tokenize (texts.getD j "")) →
      ((_BM25.fromDocs Real.log texts).score query).getD j 0 = 0) := by
  have hdlen : (texts.map _tokenize).length = texts.length := by simp
  constructor
  · have hd : ((_BM25.fromDocs (K := ℝ) Real.log texts).docs.getD i []) = _tokenize query := by
      rw [fromDocs_docs_getD texts i hi, heq]
    rw [score_getD _ _ i (by rw [fromDocs_docs]; simpa using hi), hd]
    rw [fromDocs_k1, fromDocs_b, scoreTF_eq_sum]
    rcases hq : _tokenize query with _ | ⟨t, rest⟩
    · exact absurd hq hne
    · rw [List.map_cons, List.sum_cons]
      apply add_pos_of_pos_of_nonneg
      · have hcnt : 0 < List.count t (t :: rest) := by
          apply List.count_pos_iff.mpr
          simp
        have hdf : 0 < docFreq (texts.map _tokenize) t := by
          rw [docFreq, List.countP_pos_iff]
          refine ⟨_tokenize query, ?_, by rw [hq]; simp⟩
          rw [← heq]
          have hmem : texts.getD i "" ∈ texts := by
            rw [List.getD_eq_getElem _ _ hi]
            exact List.getElem_mem _
          exact List.mem_map_of_mem _ hmem
        have hidf := idf_fromDocs_pos texts t hdf
        have havg0 := avgdl_fromDocs_nonneg texts
        rw [if_neg (by omega)]
        have hcR : (0 : ℝ) < (List.count t (t :: rest) : ℝ) := by exact_mod_cast hcnt
        have hratio : (0 : ℝ) ≤ ((max (t :: rest).length 1 : ℕ) : ℝ) /
            (if (_BM25.fromDocs Real.log texts).avgdl = 0 then 1
             else (_BM25.fromDocs Real.log texts).avgdl) := by
          apply div_nonneg (by positivity)
          split
          · norm_num
          · exact havg0
        apply div_pos
        · nlinarith
        · nlinarith
      · apply List.sum_nonneg
        intro y hy
        obtain ⟨u, hu, rfl⟩ := List.mem_map.mp hy
        exact scoreTF_term_nonneg _ (idf_fromDocs_nonneg texts u) _
          (avgdl_fromDocs_nonneg texts) _ _
  · intro j hj hdisj
    have hd : ((_BM25.fromDocs (K := ℝ) Real.log texts).docs.getD j []) =
        _tokenize (texts.getD j "") := fromDocs_docs_getD texts j hj
    rw [score_getD _ _ j (by rw [fromDocs_docs]; simpa using hj), hd, scoreTF_eq_sum]
    apply List.sum_eq_zero
    intro y hy
    obtain ⟨t, ht, rfl⟩ := List.mem_map.mp hy
    rw [if_pos (List.count_eq_zero.mpr (hdisj t ht))]

/-- Witness for C6 (amended) at a concrete input. -/
theorem c6_exact_match_amended_witness :
    ((0 : ℕ) < (["cat", "xy"] : List String).length ∧
      (["cat", "xy"] : List String).getD 0 "" = "cat" ∧ _tokenize "cat" ≠ []) ∧
    (0 < ((_BM25.fromDocs Real.log ["cat", "xy"]).score "cat").getD 0 0 ∧
      (∀ j : ℕ, j < (["cat", "xy"] : List String).length →
        (∀ t ∈ _tokenize "cat", t ∉ _tokenize ((["cat", "xy"] : List String).getD j "")) →
        ((_BM25.fromDocs Real.log ["cat", "xy"]).score "cat").getD j 0 = 0)) :=
  ⟨⟨by decide, by decide, by decide⟩,
    c6_exact_match_amended ["cat", "xy"] "cat" 0 (by decide) (by decide) (by decide)⟩

end Naoma
